import Mathlib

/-!
Verification development for the qd-engine trading core: capital risk engine,
position sizing, exit state machine, signal composite scorer and adaptive
weight updater.  Money and percentages are modelled as exact rationals; the
Python `round(x, n)` builtin (round half to even) is modelled by `pyRound`.
-/

namespace QdEngine

/-! ## Rounding (Python `round(x, n)`, half to even) -/

/-- Round a rational to the nearest integer, ties to even
(the rounding used by Python's `round` builtin). -/
def rhe (q : ℚ) : ℤ :=
  if q - ⌊q⌋ < 1/2 then ⌊q⌋
  else if 1/2 < q - ⌊q⌋ then ⌊q⌋ + 1
  else if 2 ∣ ⌊q⌋ then ⌊q⌋ else ⌊q⌋ + 1

/-- `round(q, n)` from Python: round to `n` decimal digits, ties to even. -/
def pyRound (n : ℕ) (q : ℚ) : ℚ :=
  (rhe (q * 10 ^ n) : ℚ) / 10 ^ n

/-! ## Risk manager (src/shared/risk_manager.py)

An account's configuration bundle.  `config.get(key, default)` calls in the
source are modelled with `Option` fields and the getter functions below, which
reproduce the default-chasing of `RiskManager.can_open_position` /
`RiskManager.calculate_position_size`. -/

structure AccountConfig where
  max_invested_pct? : Option ℚ
  max_position_pct? : Option ℚ
  max_per_trade_pct? : Option ℚ
  max_positions? : Option ℕ
  max_concurrent_positions? : Option ℕ

/-- `self.config.get("max_invested_pct", 0.60)` -/
def getMaxInvestedPct (cfg : AccountConfig) : ℚ :=
  cfg.max_invested_pct?.getD 0.60

/-- `self.config.get("max_position_pct", self.config.get("max_per_trade_pct", 0.10))` -/
def getMaxPositionPct (cfg : AccountConfig) : ℚ :=
  cfg.max_position_pct?.getD (cfg.max_per_trade_pct?.getD 0.10)

/-- `self.config.get("max_positions", self.config.get("max_concurrent_positions", 12))` -/
def getMaxPositions (cfg : AccountConfig) : ℕ :=
  cfg.max_positions?.getD (cfg.max_concurrent_positions?.getD 12)

/-- The rejection reasons of `RiskManager.can_open_position`, abstracting the
formatted reason strings of the source (`"OK"` is modelled as `none` in the
result). -/
inductive OpenReject where
  | circuitBreaker
  | maxInvested
  | maxPosition
  | maxPositionCount
  | alreadyHolding
  deriving DecidableEq

/-- `RiskManager.can_open_position(symbol, notional)`.  The live quantities the
method fetches (working capital, invested value, open-position count, whether a
position in the symbol already exists) are passed as arguments. -/
def can_open_position (cfg : AccountConfig) (working_capital invested notional : ℚ)
    (position_count : ℕ) (already_holding : Bool) : Bool × Option OpenReject :=
  if working_capital * 1.05 < invested then
    (false, some .circuitBreaker)
  else if working_capital * getMaxInvestedPct cfg < invested + notional then
    (false, some .maxInvested)
  else if working_capital * getMaxPositionPct cfg < notional then
    (false, some .maxPosition)
  else if getMaxPositions cfg ≤ position_count then
    (false, some .maxPositionCount)
  else if already_holding then
    (false, some .alreadyHolding)
  else
    (true, none)

/-- Outcome of the adaptive-config database lookup inside
`RiskManager.calculate_position_size`: `Except.error` models the `except`
branch (the query raised), `Except.ok` the list of override values returned. -/
abbrev AdaptiveLookup := Except Unit (List ℚ)

/-- `if max_override: max_position = min(max_position, max_override)`
(lines 143-144); `if max_override:` tests Python truthiness, hence the `≠ 0`
guard. -/
def applyMaxOverride (max_position : ℚ) : Option ℚ → ℚ
  | some o => if o ≠ 0 then min max_position o else max_position
  | none => max_position

/-- `confidence_scale = max(0.5, min(confidence / 100.0, 1.0))` (line 147). -/
def confidenceScale (confidence : ℤ) : ℚ :=
  max 0.5 (min ((confidence : ℚ) / 100) 1.0)

/-- The adaptive-override block of `calculate_position_size` (lines 150-160):
on a successful lookup with at least one row, cap the size at
`working_capital * adaptive_pct`; on an empty result or a raised exception
leave it unchanged. -/
def applyAdaptive (working_capital position_size : ℚ) : AdaptiveLookup → ℚ
  | .ok (a :: _) => min position_size (working_capital * a)
  | .ok [] => position_size
  | .error _ => position_size

/-- `RiskManager.calculate_position_size(symbol, confidence, max_override)`
(lines 131-162).  `working_capital` and `max_position_pct` stand for the
values the method reads via `get_working_capital()` and the config getters;
`adaptive` is the outcome of the `get_adaptive_config` lookup. -/
def calculate_position_size (working_capital max_position_pct : ℚ) (confidence : ℤ)
    (max_override : Option ℚ) (adaptive : AdaptiveLookup) : ℚ :=
  pyRound 2 (applyAdaptive working_capital
    (applyMaxOverride (working_capital * max_position_pct) max_override *
      confidenceScale confidence) adaptive)

/-- Position sizing pipeline of `Executor._execute_single`
(src/account1_quiver/executor.py lines 153-157): the risk manager is called
with `confidence=100` and the model-suggested size fraction is applied by the
caller. -/
def quiver_execute_size (working_capital max_position_pct : ℚ) (size_pct : ℚ)
    (adaptive : AdaptiveLookup) : ℚ :=
  calculate_position_size working_capital max_position_pct 100 none adaptive * size_pct

/-- All override values returned by the adaptive-config lookup are
non-negative (a percentage-of-capital ceiling). -/
def adaptiveValsNonneg : AdaptiveLookup → Prop
  | .ok l => ∀ a ∈ l, 0 ≤ a
  | .error _ => True

/-! ## Exit state machine

`DayTraderExecutor.manage_positions` (src/account2_daytrader/executor.py) and
`Executor.check_exit_conditions` (src/account1_quiver/executor.py). -/

/-- The exit reasons recorded by the two executors. -/
inductive ExitReason where
  | stop_loss
  | target_hit
  | trailing_stop
  | time_horizon_expired
  | eod_close
  deriving DecidableEq

/-- High-water-mark update of `manage_positions` (lines 120-122): the stored
mark moves only when the observed unrealized P&L percent strictly exceeds it. -/
def updateHighWater (prev pnl : ℚ) : ℚ :=
  if prev < pnl then pnl else prev

/-- Effective stop computation of `manage_positions` (lines 126-132).
`trail_activate` and `trail_offset` come from `config.get(...)`, so they are
`Option`s and `if trail_activate and trail_offset and current_high >= trail_activate:`
tests Python truthiness (`none` and `0` are falsy). -/
def effectiveStop (stop_pct : ℚ) (trail_activate trail_offset : Option ℚ)
    (high : ℚ) : ℚ :=
  match trail_activate, trail_offset with
  | some ta, some toff =>
      if ta ≠ 0 ∧ toff ≠ 0 ∧ ta ≤ high then
        if -stop_pct < high - toff then high - toff else -stop_pct
      else -stop_pct
  | _, _ => -stop_pct

/-- Per-position exit decision of `DayTraderExecutor.manage_positions`
(lines 119-154): update the high-water mark, compute the effective stop, then
check stop (fixed or trailing) and, failing that, the profit target.  Returns
the updated high-water mark and the exit reason, if any. -/
def dayExit (stop_pct target_pct : ℚ) (trail_activate trail_offset : Option ℚ)
    (prev_high pnl : ℚ) : ℚ × Option ExitReason :=
  let high := updateHighWater prev_high pnl
  let eff := effectiveStop stop_pct trail_activate trail_offset high
  if pnl ≤ eff then
    (high, some (if -stop_pct < eff then .trailing_stop else .stop_loss))
  else if target_pct ≤ pnl then
    (high, some .target_hit)
  else
    (high, none)

/-- Parameter resolution of `Executor.check_exit_conditions` (lines 258-260):
`float(trade["stop_loss_pct"]) if trade.get("stop_loss_pct") else DEFAULT` —
a missing or zero (falsy) stored value falls back to the default. -/
def resolveParam (stored : Option ℚ) (default : ℚ) : ℚ :=
  match stored with
  | some x => if x ≠ 0 then x else default
  | none => default

/-- The time-horizon branch of `Executor.check_exit_conditions`
(lines 272-279): `days_held?` is `none` when the trade has no `created_at`
(the horizon check is skipped). -/
def horizonCheck (horizon_days : ℤ) : Option ℤ → Option ExitReason
  | some d => if horizon_days ≤ d then some .time_horizon_expired else none
  | none => none

/-- Per-position exit decision of `Executor.check_exit_conditions`
(lines 262-279): stop loss, then target, then time horizon. -/
def quiverExit (stop_pct target_pct : ℚ) (horizon_days : ℤ) (pnl : ℚ)
    (days_held? : Option ℤ) : Option ExitReason :=
  if pnl ≤ -|stop_pct| then some .stop_loss
  else if |target_pct| ≤ pnl then some .target_hit
  else horizonCheck horizon_days days_held?

/-! ### The high-water-mark map

`self._high_water_marks` is a dict from symbol to the highest unrealized P&L
percent seen; modelled as an association list without duplicate keys. -/

abbrev Hwm := List (String × ℚ)

/-- `self._high_water_marks.get(symbol, 0)` -/
def hwmGet : Hwm → String → ℚ
  | [], _ => 0
  | p :: rest, s => if p.1 = s then p.2 else hwmGet rest s

/-- `self._high_water_marks.pop(symbol, None)` / `del` -/
def hwmErase : Hwm → String → Hwm
  | [], _ => []
  | p :: rest, s => if p.1 = s then hwmErase rest s else p :: hwmErase rest s

/-- `self._high_water_marks[symbol] = v` -/
def hwmSet (m : Hwm) (s : String) (v : ℚ) : Hwm :=
  (s, v) :: hwmErase m s

/-- A brokerage position as read by the executors: symbol and
`unrealized_plpc` (fractional unrealized P&L; the executors multiply it
by 100). -/
structure Position where
  symbol : String
  unrealized_plpc : ℚ

/-- The per-trade exit parameters of the day trader after strategy-config and
adaptive-override resolution (lines 105-117 of manage_positions). -/
structure DayExitParams where
  stop_pct : ℚ
  target_pct : ℚ
  trail_activate : Option ℚ
  trail_offset : Option ℚ

/-- Resolution of lines 106-117 of `manage_positions`: strategy config with
defaults `target_pct = 2.0`, `stop_pct = 1.0`, and the adaptive `stop_pct`
override applied when present. -/
def resolveDayParams (config_stop? config_target? : Option ℚ)
    (trail_activate trail_offset : Option ℚ) (adaptive_stop : List ℚ) :
    DayExitParams :=
  let stop := config_stop?.getD 1.0
  let stop := match adaptive_stop with
    | a :: _ => a
    | [] => stop
  { stop_pct := stop
    target_pct := config_target?.getD 2.0
    trail_activate := trail_activate
    trail_offset := trail_offset }

/-- The high-water-mark update of lines 119-122: store the observed P&L
percent exactly when it strictly exceeds the stored mark.  (The stored value
is `(dayExit ...).1 = updateHighWater prev pnl`, which equals `pnl` in the
update branch.) -/
def manageHwmUpdate (p : DayExitParams) (m : Hwm) (sym : String) (pnl : ℚ) : Hwm :=
  if hwmGet m sym < pnl then
    hwmSet m sym
      (dayExit p.stop_pct p.target_pct p.trail_activate p.trail_offset (hwmGet m sym) pnl).1
  else m

/-- Lines 119-154 for one position with an open trade: update the mark, then
close on stop/trailing/target (popping the symbol's mark) or leave the
position open. -/
def manageUpdate (p : DayExitParams) (m : Hwm) (acts : List (String × ExitReason))
    (sym : String) (pnl : ℚ) : Hwm × List (String × ExitReason) :=
  match (dayExit p.stop_pct p.target_pct p.trail_activate p.trail_offset
      (hwmGet m sym) pnl).2 with
  | some reason => (hwmErase (manageHwmUpdate p m sym pnl) sym, acts ++ [(sym, reason)])
  | none => (manageHwmUpdate p m sym pnl, acts)

/-- One iteration of the `for pos in positions:` loop of `manage_positions`
(lines 94-154), threading the high-water-mark map and the action list.
`trades` maps a symbol with an open trade to its resolved exit parameters;
a position without a matching trade is skipped (`continue`). -/
def manageStep (trades : List (String × DayExitParams))
    (st : Hwm × List (String × ExitReason)) (pos : Position) :
    Hwm × List (String × ExitReason) :=
  match (trades.find? fun t => t.1 == pos.symbol).map Prod.snd with
  | none => st
  | some p => manageUpdate p st.1 st.2 pos.symbol (pos.unrealized_plpc * 100)

/-- `DayTraderExecutor.manage_positions` (lines 88-162), restricted to its
state effect: fold the per-position step over the open positions, then drop
high-water marks whose symbol no longer appears in the open-position list. -/
def manage_positions (trades : List (String × DayExitParams)) (m : Hwm)
    (positions : List Position) : Hwm × List (String × ExitReason) :=
  ((positions.foldl (manageStep trades) (m, [])).1.filter
      (fun p => (positions.map Position.symbol).contains p.1),
   (positions.foldl (manageStep trades) (m, [])).2)

/-- `DayTraderExecutor.force_close_all` (lines 164-181) clears the
high-water-mark map before closing every position with reason `eod_close`. -/
def force_close_all_hwm (_ : Hwm) : Hwm := []

/-! ## Signal composite scorer (src/account1_quiver/signal_scorer.py) -/

/-- A raw signal as consumed by `SignalScorer._compute_composite`.  `strength`
and `signal_role` are read with `.get`, hence optional (defaults `0.5` and
"primary behaviour" respectively). -/
structure Signal where
  source : String
  strength? : Option ℚ
  signal_role? : Option String
  direction : String

/-- Lookup in a string-keyed table (Python dict `.get`). -/
def lookupQ (tbl : List (String × ℚ)) (s : String) : Option ℚ :=
  (tbl.find? fun p => p.1 == s).map Prod.snd

/-- `BASE_SCORES.get(source, 10)` -/
def baseScoreOf (base_scores : List (String × ℚ)) (s : String) : ℚ :=
  (lookupQ base_scores s).getD 10

/-- `self.weights.get(source, 1.0)` -/
def weightOf (weights : List (String × ℚ)) (s : String) : ℚ :=
  (lookupQ weights s).getD 1.0

/-- `signal_score = base * strength * weight` (lines 114-122). -/
def signalScore (base_scores weights : List (String × ℚ)) (sig : Signal) : ℚ :=
  baseScoreOf base_scores sig.source * sig.strength?.getD 0.5 * weightOf weights sig.source

/-- `signal.get("signal_role") != "confirmation"` (line 125): a missing role
counts as primary. -/
def isPrimary (sig : Signal) : Bool :=
  sig.signal_role? != some "confirmation"

/-- The set `sources` accumulated over the loop: the distinct sources of the
symbol's signals. -/
def distinctSources (signals : List Signal) : List String :=
  (signals.map Signal.source).dedup

/-- `self.convergence_multipliers` lookup by distinct-source count. -/
def lookupConv (conv : List (ℕ × ℚ)) (n : ℕ) : Option ℚ :=
  (conv.find? fun p => p.1 == n).map Prod.snd

/-- Lines 135-138: `if unique_sources in self.convergence_multipliers:
total_score *= multiplier`. -/
def applyConvergence (conv : List (ℕ × ℚ)) (n : ℕ) (t : ℚ) : ℚ :=
  match lookupConv conv n with
  | some m => t * m
  | none => t

/-- Lines 145-148: every combo bonus whose source set is a subset of the
observed sources multiplies the total. -/
def applyCombos (combos : List (List String × ℚ)) (sources : List String) (t : ℚ) : ℚ :=
  combos.foldl (fun acc c => if c.1.all (sources.contains ·) then acc * c.2 else acc) t

/-- The `primary_direction` variable: starts at `"buy"` and is overwritten by
every non-confirmation signal in loop order (lines 105, 124-127). -/
def primaryDirection (signals : List Signal) : String :=
  signals.foldl (fun d sig => if isPrimary sig then sig.direction else d) "buy"

/-- The fields of the dict returned by `_compute_composite` that the core
claims are about. -/
structure CompositeOut where
  composite_score : ℚ
  direction : String
  source_count : ℕ
  has_primary : Bool

/-- `SignalScorer._compute_composite(symbol, signals)` (lines 101-165).  The
scoring tables held on the scorer instance (base scores, adaptive weights,
convergence multipliers, combo bonuses) are passed as arguments. -/
def computeComposite (base_scores weights : List (String × ℚ))
    (conv : List (ℕ × ℚ)) (combos : List (List String × ℚ))
    (signals : List Signal) : CompositeOut :=
  let total := signals.foldl (fun acc sig => acc + signalScore base_scores weights sig) 0
  let sources := distinctSources signals
  let total := applyConvergence conv sources.length total
  let total := applyCombos combos sources total
  let has_primary := signals.any isPrimary
  let total :=
    if !has_primary && signals.any (fun sig => !isPrimary sig) then total * 0.3
    else total
  { composite_score := pyRound 2 total
    direction := primaryDirection signals
    source_count := sources.length
    has_primary := has_primary }

/-- `CONVERGENCE_MULTIPLIERS` (src/shared/config.py lines 100-104). -/
def CONVERGENCE_MULTIPLIERS : List (ℕ × ℚ) := [(2, 1.4), (3, 1.8), (4, 2.3)]

/-- `COMBO_BONUSES` (src/shared/config.py lines 107-111). -/
def COMBO_BONUSES : List (List String × ℚ) :=
  [(["lobbying", "gov_contracts"], 1.5),
   (["lobbying", "gov_contracts_all"], 1.5),
   (["house_trading", "senate_trading"], 1.4)]

/-- `BASE_SCORES` (src/account1_quiver/config.py lines 73-84). -/
def BASE_SCORES : List (String × ℚ) :=
  [("house_trading", 30), ("senate_trading", 30), ("gov_contracts", 25),
   ("gov_contracts_all", 25), ("lobbying", 20), ("off_exchange", 10),
   ("flights", 10), ("insider", 35), ("wikipedia", 10), ("wsb", 10)]

/-! ## Adaptive weight updater (src/learning/adaptive_weights.py) -/

/-- A row of the per-source scorecard read by `update_signal_weights`.
`win_rate` and `avg_return_pct` are read as `sc.get(key, d) or d`, hence
optional with Python-falsy fallback (`resolveParam`). -/
structure Scorecard where
  signal_source : String
  acted_on : ℕ
  win_rate? : Option ℚ
  avg_return_pct? : Option ℚ

/-- A row written through `db.upsert_signal_weight`. -/
structure WeightUpsert where
  signal_source : String
  weight : ℚ
  sample_size : ℕ

/-- `MIN_SAMPLE_SIZE = 20` -/
def MIN_SAMPLE_SIZE : ℕ := 20

/-- Lines 34-47 of `update_signal_weights`: the clamped candidate weight
`max(0.3, min(2.0, 1.0 + win_rate_factor*0.4 + return_factor*0.3))` with
`win_rate_factor = (win_rate - 50)/50` and
`return_factor = min(max(avg_return/5.0, -0.5), 0.5)`;
`win_rate` and `avg_return` are read as `sc.get(key, d) or d`. -/
def newWeight (sc : Scorecard) : ℚ :=
  max 0.3 (min 2.0
    (1.0 + ((resolveParam sc.win_rate? 50 - 50) / 50) * 0.4 +
      min (max (resolveParam sc.avg_return_pct? 0 / 5.0) (-0.5)) 0.5 * 0.3))

/-- The body of the `for sc in scorecards:` loop of `update_signal_weights`
(src/learning/adaptive_weights.py lines 23-72): the weight row upserted for
one scorecard, or `none` when the sample gate or the >10%-change gate skips
it.  Note: the change-threshold test divides by the current weight; Python
would raise on a zero current weight where rational division yields 0 (no
write) — stored weights are never 0, so the difference is unobservable
here. -/
def weightUpdate (current_weights : List (String × ℚ)) (sc : Scorecard) :
    Option WeightUpsert :=
  if sc.acted_on < MIN_SAMPLE_SIZE then none
  else if 0.10 < |newWeight sc - (lookupQ current_weights sc.signal_source).getD 1.0|
      / (lookupQ current_weights sc.signal_source).getD 1.0 then
    some { signal_source := sc.signal_source
           weight := pyRound 3 (newWeight sc)
           sample_size := sc.acted_on }
  else none

/-- `update_signal_weights(account_id)` (src/learning/adaptive_weights.py
lines 10-74), as the sequence of weight rows it writes through
`db.upsert_signal_weight`.  `current_weights` is the `get_signal_weights`
table (stable across the loop: each source is adjusted at most once). -/
def update_signal_weights (scorecards : List Scorecard)
    (current_weights : List (String × ℚ)) : List WeightUpsert :=
  scorecards.filterMap (weightUpdate current_weights)

/-! ## Lemmas about the rounding model -/

theorem floor_le_rhe (q : ℚ) : ⌊q⌋ ≤ rhe q := by
  unfold rhe
  split_ifs <;> omega

theorem rhe_le_floor_add_one (q : ℚ) : rhe q ≤ ⌊q⌋ + 1 := by
  unfold rhe
  split_ifs <;> omega

theorem rhe_mono {a b : ℚ} (h : a ≤ b) : rhe a ≤ rhe b := by
  have hf : ⌊a⌋ ≤ ⌊b⌋ := Int.floor_le_floor h
  rcases lt_or_eq_of_le hf with hlt | heq
  · calc rhe a ≤ ⌊a⌋ + 1 := rhe_le_floor_add_one a
      _ ≤ ⌊b⌋ := by omega
      _ ≤ rhe b := floor_le_rhe b
  · unfold rhe
    rw [← heq]
    have hab : a - (⌊a⌋ : ℚ) ≤ b - (⌊a⌋ : ℚ) := by linarith
    split_ifs <;> first | omega | linarith

theorem rhe_nonneg {q : ℚ} (h : 0 ≤ q) : 0 ≤ rhe q := by
  have h1 : (0 : ℤ) ≤ ⌊q⌋ := Int.floor_nonneg.mpr h
  have h2 := floor_le_rhe q
  omega

theorem pyRound_mono (n : ℕ) {a b : ℚ} (h : a ≤ b) : pyRound n a ≤ pyRound n b := by
  unfold pyRound
  have h10 : (0 : ℚ) < 10 ^ n := by positivity
  have h1 : a * 10 ^ n ≤ b * 10 ^ n := mul_le_mul_of_nonneg_right h h10.le
  gcongr
  exact_mod_cast rhe_mono h1

theorem pyRound_nonneg (n : ℕ) {q : ℚ} (h : 0 ≤ q) : 0 ≤ pyRound n q := by
  unfold pyRound
  have h1 : (0 : ℤ) ≤ rhe (q * 10 ^ n) := rhe_nonneg (by positivity)
  have h2 : (0 : ℚ) ≤ (rhe (q * 10 ^ n) : ℚ) := by exact_mod_cast h1
  positivity

/-! ## Lemmas about the confidence clamp -/

theorem confidenceScale_nonneg (c : ℤ) : 0 ≤ confidenceScale c :=
  le_trans (by norm_num) (le_max_left _ _)

theorem confidenceScale_le_one (c : ℤ) : confidenceScale c ≤ 1 := by
  unfold confidenceScale
  apply max_le (by norm_num)
  exact le_trans (min_le_right _ _) (by norm_num)

theorem confidenceScale_mono {c c' : ℤ} (h : c ≤ c') :
    confidenceScale c ≤ confidenceScale c' := by
  unfold confidenceScale
  have hc : ((c : ℚ)) ≤ (c' : ℚ) := by exact_mod_cast h
  gcongr

/-! ## Lemmas about the high-water-mark map -/

theorem hwmGet_eq_zero_of_not_mem {m : Hwm} {s : String}
    (h : s ∉ m.map Prod.fst) : hwmGet m s = 0 := by
  induction m with
  | nil => rfl
  | cons p rest ih =>
    simp only [List.map_cons, List.mem_cons, not_or] at h
    rw [hwmGet, if_neg fun he => h.1 he.symm]
    exact ih h.2

theorem hwmGet_nonneg {m : Hwm} (h : ∀ v ∈ m.map Prod.snd, 0 ≤ v) (s : String) :
    0 ≤ hwmGet m s := by
  induction m with
  | nil => exact le_refl 0
  | cons p rest ih =>
    rw [hwmGet]
    split_ifs
    · exact h p.2 (by simp)
    · exact ih fun v hv => h v (by simp [hv])

theorem hwmGet_erase_ne {m : Hwm} {s s' : String} (h : s' ≠ s) :
    hwmGet (hwmErase m s) s' = hwmGet m s' := by
  induction m with
  | nil => rfl
  | cons p rest ih =>
    rw [hwmErase]
    split_ifs with hp
    · rw [ih, hwmGet, if_neg]
      intro he
      exact h (he ▸ hp).symm.symm
    · rw [hwmGet, hwmGet]
      split_ifs with hq
      · rfl
      · exact ih

theorem mem_keys_erase {m : Hwm} {s s' : String} :
    s' ∈ (hwmErase m s).map Prod.fst ↔ s' ∈ m.map Prod.fst ∧ s' ≠ s := by
  induction m with
  | nil => simp [hwmErase]
  | cons p rest ih =>
    rw [hwmErase]
    split_ifs with hp
    · rw [ih]
      subst hp
      simp only [List.map_cons, List.mem_cons]
      constructor
      · exact fun ⟨h1, h2⟩ => ⟨Or.inr h1, h2⟩
      · rintro ⟨h1 | h1, h2⟩
        · exact absurd h1 h2
        · exact ⟨h1, h2⟩
    · simp only [List.map_cons, List.mem_cons, ih]
      constructor
      · rintro (h1 | ⟨h1, h2⟩)
        · exact ⟨Or.inl h1, fun he => hp (h1 ▸ he)⟩
        · exact ⟨Or.inr h1, h2⟩
      · rintro ⟨h1 | h1, h2⟩
        · exact Or.inl h1
        · exact Or.inr ⟨h1, h2⟩

theorem mem_values_erase {m : Hwm} {s : String} {v : ℚ}
    (h : v ∈ (hwmErase m s).map Prod.snd) : v ∈ m.map Prod.snd := by
  induction m with
  | nil => simp [hwmErase] at h
  | cons p rest ih =>
    rw [hwmErase] at h
    split_ifs at h with hp
    · exact List.mem_cons_of_mem _ (ih h)
    · rcases List.mem_cons.mp h with h1 | h1
      · exact List.mem_cons.mpr (Or.inl h1)
      · exact List.mem_cons_of_mem _ (ih h1)

theorem hwmGet_set_self (m : Hwm) (s : String) (v : ℚ) :
    hwmGet (hwmSet m s v) s = v := by
  rw [hwmSet, hwmGet, if_pos rfl]

theorem hwmGet_set_ne (m : Hwm) {s s' : String} (h : s' ≠ s) (v : ℚ) :
    hwmGet (hwmSet m s v) s' = hwmGet m s' := by
  rw [hwmSet, hwmGet, if_neg (fun he => h he.symm), hwmGet_erase_ne h]

theorem mem_keys_set {m : Hwm} {s s' : String} {v : ℚ} :
    s' ∈ (hwmSet m s v).map Prod.fst ↔ s' = s ∨ s' ∈ m.map Prod.fst := by
  rw [hwmSet]
  simp only [List.map_cons, List.mem_cons, mem_keys_erase]
  constructor
  · rintro (h1 | ⟨h1, h2⟩)
    · exact Or.inl h1
    · exact Or.inr h1
  · rintro (h1 | h1)
    · exact Or.inl h1
    · by_cases hs : s' = s
      · exact Or.inl hs
      · exact Or.inr ⟨h1, hs⟩

theorem mem_values_set {m : Hwm} {s : String} {v w : ℚ}
    (h : w ∈ (hwmSet m s v).map Prod.snd) : w = v ∨ w ∈ m.map Prod.snd := by
  rw [hwmSet] at h
  rcases List.mem_cons.mp h with h1 | h1
  · exact Or.inl h1
  · exact Or.inr (mem_values_erase h1)

theorem hwmGet_filter_key (f : String → Bool) (m : Hwm) (s : String) :
    hwmGet (m.filter fun p => f p.1) s = if f s then hwmGet m s else 0 := by
  induction m with
  | nil => simp [hwmGet]
  | cons p rest ih =>
    rw [List.filter_cons]
    by_cases hp : f p.1
    · rw [if_pos hp, hwmGet, hwmGet]
      by_cases hq : p.1 = s
      · rw [if_pos hq, if_pos hq, if_pos (show f s = true from hq ▸ hp)]
      · rw [if_neg hq, if_neg hq, ih]
    · rw [if_neg hp, ih, hwmGet]
      by_cases hf : f s
      · rw [if_pos hf, if_pos hf, if_neg fun he : p.1 = s => hp (he.symm ▸ hf)]
      · rw [if_neg hf, if_neg hf]

theorem mem_keys_filter_key {f : String → Bool} {m : Hwm} {s : String} :
    s ∈ (m.filter fun p => f p.1).map Prod.fst ↔ s ∈ m.map Prod.fst ∧ f s = true := by
  simp only [List.mem_map, List.mem_filter]
  constructor
  · rintro ⟨p, ⟨hm, hf⟩, hs⟩
    exact ⟨⟨p, hm, hs⟩, hs ▸ hf⟩
  · rintro ⟨⟨p, hm, hs⟩, hf⟩
    exact ⟨p, ⟨hm, hs ▸ hf⟩, hs⟩

theorem mem_values_filter {f : (String × ℚ) → Bool} {m : Hwm} {v : ℚ}
    (h : v ∈ (m.filter f).map Prod.snd) : v ∈ m.map Prod.snd := by
  simp only [List.mem_map, List.mem_filter] at h ⊢
  rcases h with ⟨p, ⟨hm, _⟩, hv⟩
  exact ⟨p, hm, hv⟩

/-! ## Lemmas about the day trader's per-position step -/

theorem le_updateHighWater (prev pnl : ℚ) : prev ≤ updateHighWater prev pnl := by
  unfold updateHighWater
  split_ifs with h
  · exact h.le
  · exact le_rfl

theorem dayExit_fst (stop target : ℚ) (ta toff : Option ℚ) (prev pnl : ℚ) :
    (dayExit stop target ta toff prev pnl).1 = updateHighWater prev pnl := by
  simp only [dayExit]
  split_ifs <;> rfl

theorem manageHwmUpdate_get_other (p : DayExitParams) (m : Hwm) {sym s : String}
    (h : s ≠ sym) (pnl : ℚ) :
    hwmGet (manageHwmUpdate p m sym pnl) s = hwmGet m s := by
  unfold manageHwmUpdate
  split_ifs
  · exact hwmGet_set_ne m h _
  · rfl

theorem manageHwmUpdate_keys_other (p : DayExitParams) (m : Hwm) {sym s : String}
    (h : s ≠ sym) (pnl : ℚ) :
    s ∈ (manageHwmUpdate p m sym pnl).map Prod.fst ↔ s ∈ m.map Prod.fst := by
  unfold manageHwmUpdate
  split_ifs
  · rw [mem_keys_set]
    constructor
    · rintro (h1 | h1)
      · exact absurd h1 h
      · exact h1
    · exact Or.inr
  · exact Iff.rfl

theorem manageHwmUpdate_get_self (p : DayExitParams) (m : Hwm) (sym : String)
    (pnl : ℚ) :
    hwmGet m sym ≤ hwmGet (manageHwmUpdate p m sym pnl) sym := by
  unfold manageHwmUpdate
  split_ifs with h
  · rw [hwmGet_set_self, dayExit_fst]
    exact le_updateHighWater _ _
  · exact le_rfl

theorem manageHwmUpdate_values_nonneg (p : DayExitParams) {m : Hwm} (sym : String)
    (pnl : ℚ) (h : ∀ v ∈ m.map Prod.snd, 0 ≤ v) :
    ∀ v ∈ (manageHwmUpdate p m sym pnl).map Prod.snd, 0 ≤ v := by
  unfold manageHwmUpdate
  split_ifs with hu
  · intro v hv
    rcases mem_values_set hv with h1 | h1
    · rw [h1, dayExit_fst]
      calc (0 : ℚ) ≤ hwmGet m sym := hwmGet_nonneg h sym
        _ ≤ updateHighWater (hwmGet m sym) pnl := le_updateHighWater _ _
    · exact h v h1
  · exact h

theorem manageUpdate_shape (p : DayExitParams) (m : Hwm)
    (acts : List (String × ExitReason)) (sym : String) (pnl : ℚ) :
    manageUpdate p m acts sym pnl = (manageHwmUpdate p m sym pnl, acts) ∨
    ∃ r, manageUpdate p m acts sym pnl
        = (hwmErase (manageHwmUpdate p m sym pnl) sym, acts ++ [(sym, r)]) := by
  unfold manageUpdate
  cases hr : (dayExit p.stop_pct p.target_pct p.trail_activate p.trail_offset
      (hwmGet m sym) pnl).2 with
  | none => exact Or.inl rfl
  | some reason => exact Or.inr ⟨reason, rfl⟩

theorem manageStep_shape (trades : List (String × DayExitParams))
    (st : Hwm × List (String × ExitReason)) (pos : Position) :
    manageStep trades st pos = st ∨
    ∃ p : DayExitParams,
      manageStep trades st pos
        = manageUpdate p st.1 st.2 pos.symbol (pos.unrealized_plpc * 100) := by
  unfold manageStep
  cases hfind : (trades.find? fun t => t.1 == pos.symbol).map Prod.snd with
  | none => exact Or.inl rfl
  | some p => exact Or.inr ⟨p, rfl⟩

theorem manageStep_get_other (trades : List (String × DayExitParams))
    (st : Hwm × List (String × ExitReason)) (pos : Position) {s : String}
    (h : s ≠ pos.symbol) :
    hwmGet (manageStep trades st pos).1 s = hwmGet st.1 s ∧
    ((s ∈ (manageStep trades st pos).1.map Prod.fst) ↔ s ∈ st.1.map Prod.fst) := by
  rcases manageStep_shape trades st pos with hs | ⟨p, hs⟩
  · rw [hs]
    exact ⟨rfl, Iff.rfl⟩
  · rw [hs]
    rcases manageUpdate_shape p st.1 st.2 pos.symbol (pos.unrealized_plpc * 100) with
      hu | ⟨r, hu⟩
    · rw [hu]
      exact ⟨manageHwmUpdate_get_other p st.1 h _,
        manageHwmUpdate_keys_other p st.1 h _⟩
    · rw [hu]
      constructor
      · rw [hwmGet_erase_ne h]
        exact manageHwmUpdate_get_other p st.1 h _
      · rw [mem_keys_erase]
        constructor
        · rintro ⟨h1, _⟩
          exact (manageHwmUpdate_keys_other p st.1 h _).mp h1
        · intro h1
          exact ⟨(manageHwmUpdate_keys_other p st.1 h _).mpr h1, h⟩

theorem manageStep_get_self (trades : List (String × DayExitParams))
    (st : Hwm × List (String × ExitReason)) (pos : Position)
    (h : pos.symbol ∈ (manageStep trades st pos).1.map Prod.fst) :
    hwmGet st.1 pos.symbol ≤ hwmGet (manageStep trades st pos).1 pos.symbol := by
  rcases manageStep_shape trades st pos with hs | ⟨p, hs⟩
  · rw [hs]
  · rw [hs] at h ⊢
    rcases manageUpdate_shape p st.1 st.2 pos.symbol (pos.unrealized_plpc * 100) with
      hu | ⟨r, hu⟩
    · rw [hu]
      exact manageHwmUpdate_get_self p st.1 pos.symbol _
    · rw [hu] at h
      rcases (mem_keys_erase.mp h) with ⟨_, hne⟩
      exact absurd rfl hne

theorem manageStep_values_nonneg (trades : List (String × DayExitParams))
    (st : Hwm × List (String × ExitReason)) (pos : Position)
    (h : ∀ v ∈ st.1.map Prod.snd, 0 ≤ v) :
    ∀ v ∈ (manageStep trades st pos).1.map Prod.snd, 0 ≤ v := by
  rcases manageStep_shape trades st pos with hs | ⟨p, hs⟩
  · rw [hs]
    exact h
  · rw [hs]
    rcases manageUpdate_shape p st.1 st.2 pos.symbol (pos.unrealized_plpc * 100) with
      hu | ⟨r, hu⟩
    · rw [hu]
      exact manageHwmUpdate_values_nonneg p pos.symbol _ h
    · rw [hu]
      intro v hv
      exact manageHwmUpdate_values_nonneg p pos.symbol _ h v (mem_values_erase hv)

theorem manageStep_acts (trades : List (String × DayExitParams))
    (st : Hwm × List (String × ExitReason)) (pos : Position) :
    (manageStep trades st pos).2 = st.2 ∨
    ∃ r, (manageStep trades st pos).2 = st.2 ++ [(pos.symbol, r)] ∧
      pos.symbol ∉ (manageStep trades st pos).1.map Prod.fst := by
  rcases manageStep_shape trades st pos with hs | ⟨p, hs⟩
  · rw [hs]
    exact Or.inl rfl
  · rw [hs]
    rcases manageUpdate_shape p st.1 st.2 pos.symbol (pos.unrealized_plpc * 100) with
      hu | ⟨r, hu⟩
    · rw [hu]
      exact Or.inl rfl
    · rw [hu]
      refine Or.inr ⟨r, rfl, ?_⟩
      rw [mem_keys_erase]
      rintro ⟨_, hne⟩
      exact hne rfl

/-! ## Lemmas about the monitoring-cycle fold -/

theorem fold_values_nonneg (trades : List (String × DayExitParams))
    (l : List Position) :
    ∀ st : Hwm × List (String × ExitReason), (∀ v ∈ st.1.map Prod.snd, 0 ≤ v) →
      ∀ v ∈ (l.foldl (manageStep trades) st).1.map Prod.snd, 0 ≤ v := by
  induction l with
  | nil => exact fun st h => h
  | cons p rest ih =>
    intro st h
    exact ih (manageStep trades st p) (manageStep_values_nonneg trades st p h)

theorem fold_untouched (trades : List (String × DayExitParams))
    (l : List Position) :
    ∀ st : Hwm × List (String × ExitReason), ∀ {s : String},
      s ∉ l.map Position.symbol →
      hwmGet (l.foldl (manageStep trades) st).1 s = hwmGet st.1 s ∧
      ((s ∈ (l.foldl (manageStep trades) st).1.map Prod.fst) ↔
        s ∈ st.1.map Prod.fst) := by
  induction l with
  | nil =>
    intro st s _
    exact ⟨rfl, Iff.rfl⟩
  | cons p rest ih =>
    intro st s hs
    simp only [List.map_cons, List.mem_cons, not_or] at hs
    have h1 := manageStep_get_other trades st p hs.1
    have h2 := ih (manageStep trades st p) hs.2
    rw [List.foldl_cons]
    exact ⟨h2.1.trans h1.1, h2.2.trans h1.2⟩

theorem fold_get_mono (trades : List (String × DayExitParams))
    (l : List Position) (hnd : (l.map Position.symbol).Nodup) :
    ∀ st : Hwm × List (String × ExitReason), ∀ {s : String},
      s ∈ (l.foldl (manageStep trades) st).1.map Prod.fst →
      hwmGet st.1 s ≤ hwmGet (l.foldl (manageStep trades) st).1 s := by
  induction l with
  | nil =>
    intro st s _
    exact le_rfl
  | cons p rest ih =>
    rw [List.map_cons, List.nodup_cons] at hnd
    intro st s hs
    rw [List.foldl_cons] at hs ⊢
    by_cases he : s = p.symbol
    · subst he
      have h2 := fold_untouched trades rest (manageStep trades st p) hnd.1
      rw [h2.1]
      exact manageStep_get_self trades st p (h2.2.mp hs)
    · have h1 := manageStep_get_other trades st p he
      calc hwmGet st.1 s = hwmGet (manageStep trades st p).1 s := h1.1.symm
        _ ≤ hwmGet (rest.foldl (manageStep trades) (manageStep trades st p)).1 s :=
          ih hnd.2 (manageStep trades st p) hs

theorem fold_closed_removed (trades : List (String × DayExitParams))
    (l : List Position) (hnd : (l.map Position.symbol).Nodup) :
    ∀ st : Hwm × List (String × ExitReason), ∀ {s : String} {r : ExitReason},
      (s, r) ∈ (l.foldl (manageStep trades) st).2 →
      (s, r) ∈ st.2 ∨ s ∉ (l.foldl (manageStep trades) st).1.map Prod.fst := by
  induction l with
  | nil =>
    intro st s r h
    exact Or.inl h
  | cons p rest ih =>
    rw [List.map_cons, List.nodup_cons] at hnd
    intro st s r hs
    rw [List.foldl_cons] at hs ⊢
    rcases ih hnd.2 (manageStep trades st p) hs with h1 | h1
    · rcases manageStep_acts trades st p with h2 | ⟨r', h2, h3⟩
      · rw [h2] at h1
        exact Or.inl h1
      · rw [h2] at h1
        rcases List.mem_append.mp h1 with h4 | h4
        · exact Or.inl h4
        · right
          have he : s = p.symbol := by
            rcases List.mem_singleton.mp h4 with h5
            exact congrArg Prod.fst h5
          subst he
          have h6 := fold_untouched trades rest (manageStep trades st p) hnd.1
          exact fun hmem => h3 (h6.2.mp hmem)
    · exact Or.inr h1

/-! ## Lemmas about the adaptive-override cap -/

theorem applyAdaptive_mono (wc : ℚ) {ps ps' : ℚ} (h : ps ≤ ps')
    (ad : AdaptiveLookup) : applyAdaptive wc ps ad ≤ applyAdaptive wc ps' ad := by
  cases ad with
  | error e => exact h
  | ok l =>
    cases l with
    | nil => exact h
    | cons a rest => exact min_le_min h le_rfl

theorem applyAdaptive_le (wc ps : ℚ) (ad : AdaptiveLookup) :
    applyAdaptive wc ps ad ≤ ps := by
  cases ad with
  | error e => exact le_rfl
  | ok l =>
    cases l with
    | nil => exact le_rfl
    | cons a rest => exact min_le_left _ _

theorem applyAdaptive_nonneg {wc ps : ℚ} (hwc : 0 ≤ wc) (hps : 0 ≤ ps)
    {ad : AdaptiveLookup} (had : adaptiveValsNonneg ad) :
    0 ≤ applyAdaptive wc ps ad := by
  cases ad with
  | error e => exact hps
  | ok l =>
    cases l with
    | nil => exact hps
    | cons a rest =>
      have ha : 0 ≤ a := had a (by simp)
      exact le_min hps (mul_nonneg hwc ha)

/-! ## Lemmas about the trailing stop and scoring tables -/

theorem effectiveStop_eq_max {stop a o high : ℚ} (ha : a ≠ 0) (ho : o ≠ 0)
    (hact : a ≤ high) :
    effectiveStop stop (some a) (some o) high = max (-stop) (high - o) := by
  simp only [effectiveStop]
  rw [if_pos ⟨ha, ho, hact⟩]
  split_ifs with h
  · exact (max_eq_right h.le).symm
  · exact (max_eq_left (not_lt.mp h)).symm

theorem lookupConv_default_eq_none {n : ℕ} (h2 : n ≠ 2) (h3 : n ≠ 3)
    (h4 : n ≠ 4) : lookupConv CONVERGENCE_MULTIPLIERS n = none := by
  simp only [lookupConv, CONVERGENCE_MULTIPLIERS]
  rw [List.find?_cons_of_neg, List.find?_cons_of_neg, List.find?_cons_of_neg,
    List.find?_nil]
  · rfl
  · simp only [beq_iff_eq]
    exact fun he => h4 he.symm
  · simp only [beq_iff_eq]
    exact fun he => h3 he.symm
  · simp only [beq_iff_eq]
    exact fun he => h2 he.symm

theorem primaryDirection_all_confirmation (l : List Signal) (d : String)
    (h : ∀ t ∈ l, isPrimary t = false) :
    l.foldl (fun d sig => if isPrimary sig then sig.direction else d) d = d := by
  induction l generalizing d with
  | nil => rfl
  | cons t rest ih =>
    rw [List.foldl_cons, if_neg]
    · exact ih d fun u hu => h u (List.mem_cons_of_mem t hu)
    · rw [h t (List.mem_cons_self t rest)]
      exact Bool.false_ne_true

/-! ## Claim theorems -/

/-- C1: for every account, symbol and notional, `can_open_position` evaluates
exactly five checks in this fixed order — (1) circuit breaker
`invested > working_capital * 1.05`, (2) max invested
`invested + notional > working_capital * max_invested_pct`, (3) max
per-position `notional > working_capital * max_position_pct`, (4) live
open-position count at or above the configured max, (5) an existing open
position in the symbol — returning `(false, reason)` at the first failing
check and `(true, "OK")` (modelled `(true, none)`) when all five pass; with
invested 5500, notional 600, working capital 10000 and max_invested_pct 0.6
the request is rejected with the max-invested reason. -/
theorem C1_open_position_check_order (cfg : AccountConfig)
    (wc invested notional : ℚ) (count : ℕ) (holding : Bool) :
    (wc * 1.05 < invested →
      can_open_position cfg wc invested notional count holding
        = (false, some OpenReject.circuitBreaker)) ∧
    (invested ≤ wc * 1.05 →
      wc * getMaxInvestedPct cfg < invested + notional →
      can_open_position cfg wc invested notional count holding
        = (false, some OpenReject.maxInvested)) ∧
    (invested ≤ wc * 1.05 →
      invested + notional ≤ wc * getMaxInvestedPct cfg →
      wc * getMaxPositionPct cfg < notional →
      can_open_position cfg wc invested notional count holding
        = (false, some OpenReject.maxPosition)) ∧
    (invested ≤ wc * 1.05 →
      invested + notional ≤ wc * getMaxInvestedPct cfg →
      notional ≤ wc * getMaxPositionPct cfg →
      getMaxPositions cfg ≤ count →
      can_open_position cfg wc invested notional count holding
        = (false, some OpenReject.maxPositionCount)) ∧
    (invested ≤ wc * 1.05 →
      invested + notional ≤ wc * getMaxInvestedPct cfg →
      notional ≤ wc * getMaxPositionPct cfg →
      count < getMaxPositions cfg →
      holding = true →
      can_open_position cfg wc invested notional count holding
        = (false, some OpenReject.alreadyHolding)) ∧
    (invested ≤ wc * 1.05 →
      invested + notional ≤ wc * getMaxInvestedPct cfg →
      notional ≤ wc * getMaxPositionPct cfg →
      count < getMaxPositions cfg →
      holding = false →
      can_open_position cfg wc invested notional count holding = (true, none)) ∧
    can_open_position ⟨some 0.6, some 0.08, none, some 12, none⟩
      10000 5500 600 0 false = (false, some OpenReject.maxInvested) := by
  refine ⟨?_, ?_, ?_, ?_, ?_, ?_, ?_⟩
  · intro h1
    rw [can_open_position, if_pos h1]
  · intro h1 h2
    rw [can_open_position, if_neg (not_lt.mpr h1), if_pos h2]
  · intro h1 h2 h3
    rw [can_open_position, if_neg (not_lt.mpr h1), if_neg (not_lt.mpr h2),
      if_pos h3]
  · intro h1 h2 h3 h4
    rw [can_open_position, if_neg (not_lt.mpr h1), if_neg (not_lt.mpr h2),
      if_neg (not_lt.mpr h3), if_pos h4]
  · intro h1 h2 h3 h4 h5
    rw [can_open_position, if_neg (not_lt.mpr h1), if_neg (not_lt.mpr h2),
      if_neg (not_lt.mpr h3), if_neg (not_le.mpr h4), if_pos h5]
  · intro h1 h2 h3 h4 h5
    rw [can_open_position, if_neg (not_lt.mpr h1), if_neg (not_lt.mpr h2),
      if_neg (not_lt.mpr h3), if_neg (not_le.mpr h4),
      if_neg (by rw [h5]; exact Bool.false_ne_true)]
  · rw [can_open_position]
    norm_num [getMaxInvestedPct]

/-- Witness for C1 at the spec scenario. -/
theorem C1_open_position_witness :
    can_open_position ⟨some 0.6, some 0.08, none, some 12, none⟩
      10000 5500 600 0 false = (false, some OpenReject.maxInvested) :=
  (C1_open_position_check_order ⟨some 0.6, some 0.08, none, some 12, none⟩
    10000 5500 600 0 false).2.1 (by norm_num) (by norm_num [getMaxInvestedPct])

/-- C3: with no adaptive override, `calculate_position_size` returns
working_capital × max_position_pct × clamp(confidence/100, 0.5, 1.0) ×
size_fraction rounded to 2 decimals, with size_fraction defaulting to 1.0;
with an adaptive override in place the lesser of the base and adaptive
notional figures is returned; with $10,000, max_position_pct 0.08 and
confidence 100 it returns exactly $800.00. -/
theorem C3_position_size_formula (wc pct : ℚ) (conf : ℤ) :
    (calculate_position_size wc pct conf none (.ok [])
      = pyRound 2 (wc * pct * max 0.5 (min ((conf : ℚ) / 100) 1.0) * 1)) ∧
    (∀ (a : ℚ) (l : List ℚ),
      calculate_position_size wc pct conf none (.ok (a :: l))
        = pyRound 2
            (min (wc * pct * max 0.5 (min ((conf : ℚ) / 100) 1.0)) (wc * a))) ∧
    calculate_position_size 10000 (8 / 100) 100 none (.ok []) = 800 := by
  refine ⟨?_, ?_, ?_⟩
  · rw [mul_one]
    rfl
  · intro a l
    rfl
  · simp only [calculate_position_size, applyMaxOverride, applyAdaptive,
      confidenceScale]
    norm_num
    rw [pyRound, rhe]
    norm_num

/-- C10: the adaptive-override lookup cannot disturb position sizing: when
the lookup raises, the size computed from the base configuration is returned
unchanged, and a successfully read override can only reduce the returned
size, never increase it. -/
theorem C10_adaptive_override_safe (wc pct : ℚ) (conf : ℤ) (ov : Option ℚ) :
    (calculate_position_size wc pct conf ov (.error ())
      = calculate_position_size wc pct conf ov (.ok [])) ∧
    ∀ (a : ℚ) (l : List ℚ),
      calculate_position_size wc pct conf ov (.ok (a :: l))
        ≤ calculate_position_size wc pct conf ov (.ok []) := by
  constructor
  · rfl
  · intro a l
    exact pyRound_mono 2 (min_le_left _ _)

/-- C5: with a trailing policy configured (truthy parameters) and the
high-water mark at or above trail_activate_pct, the effective stop floor is
max(−stop_pct, high_water_mark − trail_offset_pct); it is never below the
fixed stop −stop_pct, the high-water mark never decreases, and the floor is
monotone non-decreasing as the high-water mark rises across cycles. -/
theorem C5_trailing_floor (stop a o prev high high' pnl : ℚ)
    (ha : a ≠ 0) (ho : o ≠ 0) (hact : a ≤ high) :
    effectiveStop stop (some a) (some o) high = max (-stop) (high - o) ∧
    -stop ≤ effectiveStop stop (some a) (some o) high ∧
    (high ≤ high' →
      effectiveStop stop (some a) (some o) high
        ≤ effectiveStop stop (some a) (some o) high') ∧
    prev ≤ updateHighWater prev pnl ∧
    effectiveStop stop (some a) (some o) high
      ≤ effectiveStop stop (some a) (some o) (updateHighWater high pnl) := by
  have hmono : ∀ h2 : ℚ, high ≤ h2 →
      effectiveStop stop (some a) (some o) high
        ≤ effectiveStop stop (some a) (some o) h2 := by
    intro h2 hh
    rw [effectiveStop_eq_max ha ho hact, effectiveStop_eq_max ha ho (hact.trans hh)]
    exact max_le_max le_rfl (by linarith)
  refine ⟨effectiveStop_eq_max ha ho hact, ?_, hmono high',
    le_updateHighWater prev pnl, hmono _ (le_updateHighWater high pnl)⟩
  rw [effectiveStop_eq_max ha ho hact]
  exact le_max_left _ _

/-- Witness for C5 at a concrete trailing configuration. -/
theorem C5_trailing_floor_witness :
    effectiveStop 1 (some (3/2)) (some (1/2)) 2 = max (-1) (2 - 1/2) ∧
    -(1 : ℚ) ≤ effectiveStop 1 (some (3/2)) (some (1/2)) 2 ∧
    ((2 : ℚ) ≤ 5/2 →
      effectiveStop 1 (some (3/2)) (some (1/2)) 2
        ≤ effectiveStop 1 (some (3/2)) (some (1/2)) (5/2)) ∧
    (0 : ℚ) ≤ updateHighWater 0 3 ∧
    effectiveStop 1 (some (3/2)) (some (1/2)) 2
      ≤ effectiveStop 1 (some (3/2)) (some (1/2)) (updateHighWater 2 3) :=
  C5_trailing_floor 1 (3/2) (1/2) 0 2 (5/2) 3 (by norm_num) (by norm_num)
    (by norm_num)

/-- C7: the convergence multiplier is applied to a symbol's summed score
exactly when the distinct-source count equals a configured tier; under the
default table the tiers are exactly 2, 3 and 4, so five or more distinct
sources receive no multiplier; two signals from sources A and B with
per-signal scores 30×0.8 and 30×0.7, weights 1.0, the 1.4× 2-source
multiplier and no combo bonuses yield a composite score of exactly 63.0. -/
theorem C7_convergence_tiers (t : ℚ) :
    (lookupConv CONVERGENCE_MULTIPLIERS 2 = some 1.4 ∧
      lookupConv CONVERGENCE_MULTIPLIERS 3 = some 1.8 ∧
      lookupConv CONVERGENCE_MULTIPLIERS 4 = some 2.3 ∧
      ∀ n : ℕ, n ≠ 2 → n ≠ 3 → n ≠ 4 →
        lookupConv CONVERGENCE_MULTIPLIERS n = none) ∧
    (∀ n : ℕ, 5 ≤ n → applyConvergence CONVERGENCE_MULTIPLIERS n t = t) ∧
    applyConvergence CONVERGENCE_MULTIPLIERS 2 t = t * 1.4 ∧
    (∀ (conv : List (ℕ × ℚ)) (n : ℕ), lookupConv conv n = none →
      applyConvergence conv n t = t) ∧
    (∀ (conv : List (ℕ × ℚ)) (n : ℕ) (mlt : ℚ), lookupConv conv n = some mlt →
      applyConvergence conv n t = t * mlt) ∧
    (computeComposite [("A", 30), ("B", 30)] [] CONVERGENCE_MULTIPLIERS []
      [⟨"A", some 0.8, some "primary", "buy"⟩,
       ⟨"B", some 0.7, some "primary", "buy"⟩]).composite_score = 63 := by
  have hnone : ∀ (conv : List (ℕ × ℚ)) (n : ℕ), lookupConv conv n = none →
      applyConvergence conv n t = t := by
    intro conv n h
    unfold applyConvergence
    rw [h]
  have hsome : ∀ (conv : List (ℕ × ℚ)) (n : ℕ) (mlt : ℚ),
      lookupConv conv n = some mlt → applyConvergence conv n t = t * mlt := by
    intro conv n mlt h
    unfold applyConvergence
    rw [h]
  refine ⟨⟨rfl, rfl, rfl, fun n h2 h3 h4 => lookupConv_default_eq_none h2 h3 h4⟩,
    ?_, hsome _ 2 1.4 rfl, hnone, hsome, ?_⟩
  · intro n h5
    exact hnone _ n
      (lookupConv_default_eq_none (by omega) (by omega) (by omega))
  · simp [computeComposite, signalScore, distinctSources, applyConvergence,
      applyCombos, lookupConv, lookupQ, baseScoreOf, weightOf, isPrimary,
      primaryDirection, CONVERGENCE_MULTIPLIERS, List.dedup]
    norm_num
    rw [pyRound, rhe]
    norm_num

/-- Witness for C7: five distinct sources receive no multiplier. -/
theorem C7_convergence_witness :
    applyConvergence CONVERGENCE_MULTIPLIERS 5 45 = 45 :=
  (C7_convergence_tiers 45).2.1 5 (by norm_num)

/-- C4 counterexample: as universally stated the claim fails — (a) rounding
can push the result above working_capital × max_position_pct (10000.1 × 0.08
= 800.008 but the function returns 800.01); (b) with negative working capital
the result decreases as confidence rises; (c) with a negative adaptive
override value the pipeline result decreases as size_fraction rises. -/
theorem C4_counterexample :
    10000.1 * 0.08 < calculate_position_size 10000.1 0.08 100 none (.ok []) ∧
    ((50 : ℤ) ≤ 100 ∧
      calculate_position_size (-1000) (1/10) 100 none (.ok [])
        < calculate_position_size (-1000) (1/10) 50 none (.ok [])) ∧
    ((0 : ℚ) ≤ 1 ∧
      quiver_execute_size 1000 (1/10) 1 (.ok [-1])
        < quiver_execute_size 1000 (1/10) 0 (.ok [-1])) := by
  have e1 : calculate_position_size 10000.1 0.08 100 none (.ok []) = 800.01 := by
    simp only [calculate_position_size, applyMaxOverride, applyAdaptive,
      confidenceScale]
    norm_num
    rw [pyRound, rhe]
    norm_num
  have e2 : calculate_position_size (-1000) (1/10) 100 none (.ok []) = -100 := by
    simp only [calculate_position_size, applyMaxOverride, applyAdaptive,
      confidenceScale]
    norm_num [max_def, min_def]
    rw [pyRound, rhe]
    norm_num
  have e3 : calculate_position_size (-1000) (1/10) 50 none (.ok []) = -50 := by
    simp only [calculate_position_size, applyMaxOverride, applyAdaptive,
      confidenceScale]
    norm_num [max_def, min_def]
    rw [pyRound, rhe]
    norm_num
  have e4 : quiver_execute_size 1000 (1/10) 1 (.ok [-1]) = -1000 := by
    rw [quiver_execute_size, mul_one]
    simp only [calculate_position_size, applyMaxOverride, applyAdaptive,
      confidenceScale]
    norm_num [max_def, min_def]
    rw [pyRound, rhe]
    norm_num
  have e5 : quiver_execute_size 1000 (1/10) 0 (.ok [-1]) = 0 := by
    rw [quiver_execute_size, mul_zero]
  refine ⟨?_, ⟨by norm_num, ?_⟩, ⟨by norm_num, ?_⟩⟩
  · rw [e1]
    norm_num
  · rw [e2, e3]
    norm_num
  · rw [e4, e5]
    norm_num

/-- C4 amended: provided working capital, max_position_pct and any adaptive
override values are non-negative, `calculate_position_size` is monotone
non-decreasing in confidence, the quiver sizing pipeline is monotone
non-decreasing in size_fraction, and the result never exceeds
working_capital × max_position_pct rounded to the same 2-decimal precision. -/
theorem C4_amended (wc pct : ℚ) (hwc : 0 ≤ wc) (hpct : 0 ≤ pct)
    (adaptive : AdaptiveLookup) (had : adaptiveValsNonneg adaptive) :
    (∀ c c' : ℤ, c ≤ c' →
      calculate_position_size wc pct c none adaptive
        ≤ calculate_position_size wc pct c' none adaptive) ∧
    (∀ sf sf' : ℚ, 0 ≤ sf → sf ≤ sf' →
      quiver_execute_size wc pct sf adaptive
        ≤ quiver_execute_size wc pct sf' adaptive) ∧
    (∀ c : ℤ, calculate_position_size wc pct c none adaptive
        ≤ pyRound 2 (wc * pct)) := by
  have hbase : 0 ≤ wc * pct := mul_nonneg hwc hpct
  have hcalc_le : ∀ c : ℤ, calculate_position_size wc pct c none adaptive
      ≤ pyRound 2 (wc * pct) := by
    intro c
    apply pyRound_mono
    calc applyAdaptive wc
          (applyMaxOverride (wc * pct) none * confidenceScale c) adaptive
        ≤ applyMaxOverride (wc * pct) none * confidenceScale c :=
          applyAdaptive_le _ _ _
      _ = wc * pct * confidenceScale c := rfl
      _ ≤ wc * pct := mul_le_of_le_one_right hbase (confidenceScale_le_one c)
  have hcalc_nonneg : ∀ c : ℤ,
      0 ≤ calculate_position_size wc pct c none adaptive := by
    intro c
    apply pyRound_nonneg
    exact applyAdaptive_nonneg hwc
      (mul_nonneg hbase (confidenceScale_nonneg c)) had
  refine ⟨?_, ?_, hcalc_le⟩
  · intro c c' hcc
    apply pyRound_mono
    apply applyAdaptive_mono
    exact mul_le_mul_of_nonneg_left (confidenceScale_mono hcc) hbase
  · intro sf sf' hsf hss
    unfold quiver_execute_size
    exact mul_le_mul_of_nonneg_left hss (hcalc_nonneg 100)

/-- Witness for the amended C4 at a concrete account. -/
theorem C4_amended_witness :
    calculate_position_size 10000 (8/100) 100 none (.ok [])
      ≤ pyRound 2 (10000 * (8/100)) :=
  (C4_amended 10000 (8/100) (by norm_num) (by norm_num) (.ok [])
    (by intro a ha; exact absurd ha (List.not_mem_nil a))).2.2 100

/-- C2 counterexample: in the day trader a position past its target (pnl 3 ≥
target 2) and past its activated trailing floor (3 ≤ 4 − 0.5 = 3.5) but not
its fixed stop (3 > −5) closes with reason trailing_stop, not target_hit as
the claimed stop→target→trailing precedence would dictate. -/
theorem C2_counterexample :
    updateHighWater 4 3 = 4 ∧
    effectiveStop 5 (some 1.5) (some 0.5) 4 = 3.5 ∧
    ((2 : ℚ) ≤ 3 ∧ (3 : ℚ) ≤ 3.5 ∧ -(5 : ℚ) < 3) ∧
    (dayExit 5 2 (some 1.5) (some 0.5) 4 3).2 = some ExitReason.trailing_stop ∧
    ExitReason.trailing_stop ≠ ExitReason.target_hit := by
  refine ⟨?_, ?_, ⟨by norm_num, by norm_num, by norm_num⟩, ?_, by decide⟩
  · rw [updateHighWater]
    norm_num
  · simp only [effectiveStop]
    norm_num
  · rw [dayExit, updateHighWater, effectiveStop]
    norm_num

/-- C2 amended: stop loss takes precedence over target hit in both executors
(a position past both closes stop_loss); the quiver executor checks stop,
then target, then time horizon; the day trader folds the trailing stop into
the stop check ahead of the target, so a position past its target and its
activated trailing floor (but not the fixed stop) closes trailing_stop. -/
theorem C2_amended :
    (∀ (stop target : ℚ) (horizon : ℤ) (pnl : ℚ) (d? : Option ℤ),
      pnl ≤ -|stop| →
      quiverExit stop target horizon pnl d? = some ExitReason.stop_loss) ∧
    (∀ (stop target : ℚ) (horizon : ℤ) (pnl : ℚ) (d? : Option ℤ),
      -|stop| < pnl → |target| ≤ pnl →
      quiverExit stop target horizon pnl d? = some ExitReason.target_hit) ∧
    (∀ (stop target : ℚ) (horizon : ℤ) (pnl : ℚ) (d : ℤ),
      -|stop| < pnl → pnl < |target| → horizon ≤ d →
      quiverExit stop target horizon pnl (some d)
        = some ExitReason.time_horizon_expired) ∧
    (∀ stop target prev pnl : ℚ, pnl ≤ -stop → target ≤ pnl →
      (dayExit stop target none none prev pnl).2 = some ExitReason.stop_loss) ∧
    (∀ stop target a o prev pnl : ℚ, a ≠ 0 → o ≠ 0 →
      a ≤ updateHighWater prev pnl →
      -stop < updateHighWater prev pnl - o →
      pnl ≤ updateHighWater prev pnl - o →
      (dayExit stop target (some a) (some o) prev pnl).2
        = some ExitReason.trailing_stop) := by
  refine ⟨?_, ?_, ?_, ?_, ?_⟩
  · intro stop target horizon pnl d? h
    rw [quiverExit, if_pos h]
  · intro stop target horizon pnl d? h1 h2
    rw [quiverExit, if_neg (not_le.mpr h1), if_pos h2]
  · intro stop target horizon pnl d h1 h2 h3
    rw [quiverExit, if_neg (not_le.mpr h1), if_neg (not_le.mpr h2)]
    simp only [horizonCheck]
    rw [if_pos h3]
  · intro stop target prev pnl h1 h2
    have he : effectiveStop stop none none (updateHighWater prev pnl) = -stop := rfl
    simp only [dayExit, he]
    rw [if_pos h1, if_neg (lt_irrefl (-stop))]
  · intro stop target a o prev pnl ha ho hact hgt hle
    have he : effectiveStop stop (some a) (some o) (updateHighWater prev pnl)
        = updateHighWater prev pnl - o := by
      rw [effectiveStop_eq_max ha ho hact]
      exact max_eq_right hgt.le
    simp only [dayExit, he]
    rw [if_pos hle, if_pos hgt]

/-- Witness for the amended C2: past both stop and target closes stop_loss. -/
theorem C2_amended_witness :
    (dayExit 1 (-3) none none 0 (-2)).2 = some ExitReason.stop_loss :=
  C2_amended.2.2.2.1 1 (-3) 0 (-2) (by norm_num) (by norm_num)

/-- C6 counterexample: with two primary signals, first buy then sell, the
composite direction is that of the LAST primary processed ("sell"), not the
first as claimed. -/
theorem C6_counterexample :
    (computeComposite BASE_SCORES [] CONVERGENCE_MULTIPLIERS COMBO_BONUSES
      [⟨"house_trading", some 0.8, none, "buy"⟩,
       ⟨"senate_trading", some 0.7, none, "sell"⟩]).direction = "sell" ∧
    isPrimary ⟨"house_trading", some 0.8, none, "buy"⟩ = true ∧
    "sell" ≠ "buy" := by
  exact ⟨rfl, rfl, by decide⟩

/-- C6 amended: the composite direction is the direction of the LAST
primary-role signal in input-list order, and "buy" when no primary signal is
present. -/
theorem C6_amended (base weights : List (String × ℚ)) (conv : List (ℕ × ℚ))
    (combos : List (List String × ℚ)) (pre post : List Signal) (s : Signal)
    (hs : isPrimary s = true) (hpost : ∀ u ∈ post, isPrimary u = false) :
    (computeComposite base weights conv combos (pre ++ s :: post)).direction
      = s.direction ∧
    ∀ sigs : List Signal, (∀ u ∈ sigs, isPrimary u = false) →
      (computeComposite base weights conv combos sigs).direction = "buy" := by
  constructor
  · show primaryDirection (pre ++ s :: post) = s.direction
    unfold primaryDirection
    rw [List.foldl_append, List.foldl_cons, if_pos hs]
    exact primaryDirection_all_confirmation post s.direction hpost
  · intro sigs hall
    show primaryDirection sigs = "buy"
    exact primaryDirection_all_confirmation sigs "buy" hall

/-- Witness for the amended C6: a primary followed by a confirmation keeps
the primary direction. -/
theorem C6_amended_witness :
    (computeComposite BASE_SCORES [] CONVERGENCE_MULTIPLIERS COMBO_BONUSES
      ([] ++ (⟨"house_trading", some 0.8, none, "buy"⟩ : Signal) ::
        [⟨"off_exchange", some 0.5, some "confirmation", "sell"⟩])).direction
      = "buy" :=
  (C6_amended BASE_SCORES [] CONVERGENCE_MULTIPLIERS COMBO_BONUSES []
    [⟨"off_exchange", some 0.5, some "confirmation", "sell"⟩]
    ⟨"house_trading", some 0.8, none, "buy"⟩ rfl
    (by
      intro u hu
      rcases List.mem_singleton.mp hu with h
      rw [h]
      rfl)).1

/-- C8: every weight written by the adaptive weight updater lies in
[0.3, 2.0], and no weight row is written for a source whose acted-on sample
count is below 20. -/
theorem C8_weight_bounds (scorecards : List Scorecard)
    (currents : List (String × ℚ)) (u : WeightUpsert)
    (hu : u ∈ update_signal_weights scorecards currents) :
    3/10 ≤ u.weight ∧ u.weight ≤ 2 ∧ MIN_SAMPLE_SIZE ≤ u.sample_size := by
  rw [update_signal_weights] at hu
  rcases List.mem_filterMap.mp hu with ⟨sc, hsc, hw⟩
  unfold weightUpdate at hw
  split_ifs at hw with h1 h2
  · injection hw with hw
    subst hw
    have hlo : (3/10 : ℚ) ≤ newWeight sc :=
      le_trans (by norm_num) (le_max_left _ _)
    have hhi : newWeight sc ≤ 2 :=
      max_le (by norm_num) (le_trans (min_le_left _ _) (by norm_num))
    have e3 : pyRound 3 (3/10 : ℚ) = 3/10 := by
      rw [pyRound, rhe]
      norm_num
    have e4 : pyRound 3 (2 : ℚ) = 2 := by
      rw [pyRound, rhe]
      norm_num
    refine ⟨?_, ?_, not_lt.mp h1⟩
    · calc (3/10 : ℚ) = pyRound 3 (3/10) := e3.symm
        _ ≤ pyRound 3 (newWeight sc) := pyRound_mono 3 hlo
    · calc pyRound 3 (newWeight sc) ≤ pyRound 3 2 := pyRound_mono 3 hhi
        _ = 2 := e4

/-- Witness for C8 on a concrete scorecard that triggers a write. -/
theorem C8_weight_bounds_witness :
    (3/10 : ℚ) ≤ (1.55 : ℚ) ∧ (1.55 : ℚ) ≤ 2 ∧ MIN_SAMPLE_SIZE ≤ 30 :=
  C8_weight_bounds [⟨"src", 30, some 100, some 10⟩] [] ⟨"src", 1.55, 30⟩
    (by
      have hwu : weightUpdate [] (⟨"src", 30, some 100, some 10⟩ : Scorecard)
          = some ⟨"src", 1.55, 30⟩ := by
        unfold weightUpdate
        norm_num [MIN_SAMPLE_SIZE, resolveParam, lookupQ, newWeight, abs,
          max_def, min_def]
        rw [pyRound, rhe]
        norm_num
      have e : update_signal_weights [⟨"src", 30, some 100, some 10⟩] []
          = [⟨"src", 1.55, 30⟩] := by
        rw [update_signal_weights, List.filterMap_cons, hwu]
        rfl
      rw [e]
      exact List.mem_singleton.mpr rfl)

/-- C9: over one monitoring cycle the high-water-mark map keeps only
non-negative values, an absent symbol reads as mark 0, a surviving symbol's
mark never decreases, a symbol closed by the exit machine is removed, a
symbol absent from the open-position list is removed at cycle end, and the
end-of-day force close clears the map. -/
theorem C9_hwm_invariants (trades : List (String × DayExitParams)) (m : Hwm)
    (positions : List Position)
    (hnn : ∀ v ∈ m.map Prod.snd, 0 ≤ v)
    (hnd : (positions.map Position.symbol).Nodup) :
    (∀ v ∈ (manage_positions trades m positions).1.map Prod.snd, 0 ≤ v) ∧
    (∀ s : String, s ∈ (manage_positions trades m positions).1.map Prod.fst →
      hwmGet m s ≤ hwmGet (manage_positions trades m positions).1 s) ∧
    (∀ s : String, s ∉ positions.map Position.symbol →
      s ∉ (manage_positions trades m positions).1.map Prod.fst) ∧
    (∀ (s : String) (r : ExitReason),
      (s, r) ∈ (manage_positions trades m positions).2 →
      s ∉ (manage_positions trades m positions).1.map Prod.fst) ∧
    (∀ s : String, s ∉ m.map Prod.fst → hwmGet m s = 0) ∧
    force_close_all_hwm m = [] := by
  unfold manage_positions
  refine ⟨?_, ?_, ?_, ?_, fun s h => hwmGet_eq_zero_of_not_mem h, rfl⟩
  · intro v hv
    exact fold_values_nonneg trades positions (m, []) hnn v (mem_values_filter hv)
  · intro s hs
    rcases mem_keys_filter_key.mp hs with ⟨hkeys, hcont⟩
    rw [hwmGet_filter_key (fun x => (positions.map Position.symbol).contains x)
      ((positions.foldl (manageStep trades) (m, [])).1) s, if_pos hcont]
    exact fold_get_mono trades positions hnd (m, []) hkeys
  · intro s hs hmem
    rcases mem_keys_filter_key.mp hmem with ⟨_, hcont⟩
    exact hs (List.elem_iff.mp hcont)
  · intro s r hs
    rcases fold_closed_removed trades positions hnd (m, []) hs with h1 | h1
    · exact absurd h1 (List.not_mem_nil _)
    · intro hmem
      exact h1 (mem_keys_filter_key.mp hmem).1

/-- Witness for C9 on a one-position cycle whose mark rises from 1/4 to 1/2. -/
theorem C9_hwm_invariants_witness :
    hwmGet [("AAPL", 1/4)] "AAPL"
      ≤ hwmGet (manage_positions [("AAPL", ⟨1, 2, none, none⟩)]
          [("AAPL", 1/4)] [⟨"AAPL", 1/200⟩]).1 "AAPL" :=
  (C9_hwm_invariants [("AAPL", ⟨1, 2, none, none⟩)] [("AAPL", 1/4)]
    [⟨"AAPL", 1/200⟩]
    (by
      intro v hv
      simp only [List.map_cons, List.map_nil, List.mem_singleton] at hv
      rw [hv]
      norm_num)
    (by simp)).2.1 "AAPL"
    (by
      have e : manage_positions [("AAPL", (⟨1, 2, none, none⟩ : DayExitParams))]
          [("AAPL", 1/4)] [⟨"AAPL", 1/200⟩] = ([("AAPL", 1/2)], []) := by
        simp [manage_positions, manageStep, manageUpdate, manageHwmUpdate,
          dayExit, updateHighWater, effectiveStop, hwmGet, hwmSet, hwmErase]
        norm_num
      rw [e]
      simp)

end QdEngine
